import Mathlib

/-!
Verification of the tabby metadata normalization and reconciliation pipeline
(`utils.py`, `queries.py`, `get_tabby_metadata.py`, `process_subdirectory.py`).

The Python code is shallowly embedded: Python values flowing through the
pipeline (None, bool, int, str, list, dict) are the inductive `PyVal`; a
Python function that can raise is a Lean function into `Option` (`Option.none`
models an uncaught exception, `some v` a returned value); the one normalizer
that mutates its argument (`process_publications`, via `dict.pop` and item
assignment) is embedded in state-passing style, returning both its result and
the value of its argument after the call.  Python dicts are association lists
with unique keys, preserving insertion order, exactly as Python 3.7+ dicts do;
`dict.get`, `dict.pop`, item assignment and the `|` merge operator are embedded
below.  The ontology lookup service (an external collaborator reached over
HTTP) is abstracted as a function from the queried term to an HTTP response
(status code plus parsed JSON body); response caching affects performance only,
never the value returned, and is not modelled.
-/

/-- A Python value as it appears in the parsed linked-data documents handled
by the pipeline: `None`, a bool, an int, a string, a list, or a dict with
string keys (the JSON-shaped universe the tabby loader produces). -/
inductive PyVal where
  | none
  | bool (b : Bool)
  | int (n : Int)
  | str (s : String)
  | list (xs : List PyVal)
  | dict (kvs : List (String × PyVal))

mutual

/-- Structural equality of Python values (Python `==` on this universe,
except that Python's `True == 1` numeric cross-type equality is not needed
by any comparison the embedded code performs: it only ever compares against
string literals and `None`). -/
def PyVal.beq : PyVal → PyVal → Bool
  | .none, .none => true
  | .bool a, .bool b => a == b
  | .int a, .int b => a == b
  | .str a, .str b => a == b
  | .list xs, .list ys => PyVal.beqL xs ys
  | .dict xs, .dict ys => PyVal.beqD xs ys
  | _, _ => false

/-- Equality of lists of Python values. -/
def PyVal.beqL : List PyVal → List PyVal → Bool
  | [], [] => true
  | a :: as, b :: bs => PyVal.beq a b && PyVal.beqL as bs
  | _, _ => false

/-- Equality of Python dict entry lists. -/
def PyVal.beqD : List (String × PyVal) → List (String × PyVal) → Bool
  | [], [] => true
  | (k, a) :: as, (l, b) :: bs => k == l && PyVal.beq a b && PyVal.beqD as bs
  | _, _ => false

end

mutual

theorem PyVal.beq_iff : ∀ a b : PyVal, PyVal.beq a b = true ↔ a = b
  | .none, b => by cases b <;> simp [PyVal.beq]
  | .bool a, b => by cases b <;> simp [PyVal.beq]
  | .int a, b => by cases b <;> simp [PyVal.beq]
  | .str a, b => by cases b <;> simp [PyVal.beq]
  | .list xs, b => by cases b <;> simp [PyVal.beq, PyVal.beqL_iff xs]
  | .dict xs, b => by cases b <;> simp [PyVal.beq, PyVal.beqD_iff xs]

theorem PyVal.beqL_iff : ∀ a b : List PyVal, PyVal.beqL a b = true ↔ a = b
  | [], [] => by simp [PyVal.beqL]
  | a :: as, b :: bs => by
      simp [PyVal.beqL, PyVal.beq_iff a b, PyVal.beqL_iff as bs]
  | [], _ :: _ => by simp [PyVal.beqL]
  | _ :: _, [] => by simp [PyVal.beqL]

theorem PyVal.beqD_iff : ∀ a b : List (String × PyVal), PyVal.beqD a b = true ↔ a = b
  | [], [] => by simp [PyVal.beqD]
  | (k, a) :: as, (l, b) :: bs => by
      simp [PyVal.beqD, PyVal.beq_iff a b, PyVal.beqD_iff as bs, and_assoc]
  | [], _ :: _ => by simp [PyVal.beqD]
  | _ :: _, [] => by simp [PyVal.beqD]

end

instance : DecidableEq PyVal := fun a b =>
  decidable_of_iff (PyVal.beq a b = true) (PyVal.beq_iff a b)

instance : BEq PyVal := ⟨PyVal.beq⟩

/-- `d.get(k, dflt)` on a Python dict given as its entry list: the value at
the first entry for `k`, or the default. -/
def pyGet (d : List (String × PyVal)) (k : String) (dflt : PyVal) : PyVal :=
  match d.find? (fun kv => kv.1 == k) with
  | some kv => kv.2
  | Option.none => dflt

/-- Item assignment `d[k] = v` on a Python dict: replaces the value at an
existing key in place (insertion position preserved), otherwise appends the
new entry at the end — exactly Python 3.7+ dict semantics. -/
def pySet (d : List (String × PyVal)) (k : String) (v : PyVal) : List (String × PyVal) :=
  match d with
  | [] => [(k, v)]
  | (k0, v0) :: rest =>
      if k0 == k then (k0, v) :: rest else (k0, v0) :: pySet rest k v

/-- `d.pop(k, None)`: the popped value (or `None`) together with the dict
with the entry for `k` removed. -/
def pyPop (d : List (String × PyVal)) (k : String) : PyVal × List (String × PyVal) :=
  match d with
  | [] => (.none, [])
  | (k0, v0) :: rest =>
      if k0 == k then (v0, rest)
      else
        let (v, rest2) := pyPop rest k
        (v, (k0, v0) :: rest2)

/-- Python dict merge `d1 | d2`: keys of `d1` in order (values overridden by
`d2` where shared), then the remaining keys of `d2` in order. -/
def pyUnion (d1 d2 : List (String × PyVal)) : List (String × PyVal) :=
  d2.foldl (fun acc kv => pySet acc kv.1 kv.2) d1

/-- Python truthiness of a value (`if x:`): `None`, `False`, `0`, `""`, `[]`
and `{}` are falsy, everything else truthy. -/
def pyTruthy : PyVal → Bool
  | .none => false
  | .bool b => b
  | .int n => n != 0
  | .str s => s ≠ ""
  | .list xs => xs ≠ []
  | .dict kvs => kvs ≠ []

/-- Exception-aware elementwise traversal (a Python `for` loop building a
result list, where the body may raise). -/
def optMap (f : α → Option β) : List α → Option (List β)
  | [] => some []
  | a :: as => do
      let b ← f a
      let bs ← optMap f as
      return b :: bs

/-- Python whitespace, for `str.strip()` inside `int(...)`. -/
def isSpaceChar (c : Char) : Bool :=
  c = ' ' || c = '\t' || c = '\n' || c = '\r' || c = '\x0b' || c = '\x0c'

/-- Strip leading and trailing whitespace from a character list. -/
def trimChars (cs : List Char) : List Char :=
  ((cs.dropWhile isSpaceChar).reverse.dropWhile isSpaceChar).reverse

/-- Parse a non-empty all-digit character list as a natural number. -/
def digitsToNat (cs : List Char) : Option Nat :=
  if cs = [] then Option.none
  else (optMap (fun c => if c.isDigit then some (c.toNat - 48) else Option.none) cs).map
    fun ds => ds.foldl (fun a d => 10 * a + d) 0

/-- Python `int(x)` coercion on this universe: ints pass through, bools map
to 0/1, strings are parsed as an optionally signed decimal (surrounding
whitespace stripped; digit-group underscores, unused by this pipeline, are
not modelled); anything else raises (`Option.none`). -/
def pyInt : PyVal → Option Int
  | .int n => some n
  | .bool b => some (if b then 1 else 0)
  | .str s =>
      (match trimChars s.data with
        | '-' :: ds => (digitsToNat ds).map fun n => -(n : Int)
        | '+' :: ds => (digitsToNat ds).map fun n => (n : Int)
        | ds => (digitsToNat ds).map fun n => (n : Int))
  | _ => Option.none

theorem optMap_cons (f : α → Option β) (a : α) (as : List α) :
    optMap f (a :: as) = do
      let b ← f a
      let bs ← optMap f as
      return b :: bs := rfl

theorem pyGet_eq_of_forall_ne (d : List (String × PyVal)) (k : String) (dflt : PyVal)
    (h : ∀ kv ∈ d, kv.1 ≠ k) : pyGet d k dflt = dflt := by
  unfold pyGet
  rw [List.find?_eq_none.mpr]
  intro kv hkv
  simpa using h kv hkv

/-! ## Identifier minting (`utils.mint_dataset_id`, `utils.get_dataset_id`)

`uuid.uuid5(namespace, name)` computes SHA-1 over the namespace UUID's 16
big-endian bytes followed by the UTF-8 encoding of `name`, truncates the
digest to 16 bytes, and overwrites the version nibble (byte 6 high nibble
becomes 5) and the variant bits (byte 8 top two bits become `10`).  SHA-1 is
embedded below over `Nat` with explicit `% 2 ^ 32` truncation. -/

/-- 32-bit left rotation. -/
def rotl32 (k x : Nat) : Nat := ((x <<< k) ||| (x >>> (32 - k))) % 2 ^ 32

/-- The SHA-1 round function (operands are < 2^32, so bitwise complement of
`b` is `b ^^^ 0xFFFFFFFF`). -/
def sha1F (i b c d : Nat) : Nat :=
  if i < 20 then (b &&& c) ||| ((b ^^^ 0xFFFFFFFF) &&& d)
  else if i < 40 then b ^^^ c ^^^ d
  else if i < 60 then (b &&& c) ||| (b &&& d) ||| (c &&& d)
  else b ^^^ c ^^^ d

/-- The SHA-1 round constants. -/
def sha1K (i : Nat) : Nat :=
  if i < 20 then 0x5A827999
  else if i < 40 then 0x6ED9EBA1
  else if i < 60 then 0x8F1BBCDC
  else 0xCA62C1D6

/-- The 16 initial 32-bit big-endian words of a 64-byte chunk. -/
def sha1Words (chunk : List Nat) : List Nat :=
  (List.range 16).map fun j =>
    chunk.getD (4 * j) 0 * 2 ^ 24 + chunk.getD (4 * j + 1) 0 * 2 ^ 16 +
      chunk.getD (4 * j + 2) 0 * 2 ^ 8 + chunk.getD (4 * j + 3) 0

/-- Extend 16 words to the 80-word message schedule. -/
def sha1Extend (ws : List Nat) : List Nat :=
  (List.range 64).foldl
    (fun w _ =>
      w ++ [rotl32 1 (w.getD (w.length - 3) 0 ^^^ w.getD (w.length - 8) 0 ^^^
        w.getD (w.length - 14) 0 ^^^ w.getD (w.length - 16) 0)])
    ws

/-- One SHA-1 round on the five-word state. -/
def sha1Round (ws : List Nat) (st : Nat × Nat × Nat × Nat × Nat) (i : Nat) :
    Nat × Nat × Nat × Nat × Nat :=
  let (a, b, c, d, e) := st
  ((rotl32 5 a + sha1F i b c d + e + sha1K i + ws.getD i 0) % 2 ^ 32,
    a, rotl32 30 b, c, d)

/-- Process one 64-byte chunk. -/
def sha1Chunk (h : Nat × Nat × Nat × Nat × Nat) (chunk : List Nat) :
    Nat × Nat × Nat × Nat × Nat :=
  let ws := sha1Extend (sha1Words chunk)
  let (a, b, c, d, e) := (List.range 80).foldl (sha1Round ws) h
  ((h.1 + a) % 2 ^ 32, (h.2.1 + b) % 2 ^ 32, (h.2.2.1 + c) % 2 ^ 32,
    (h.2.2.2.1 + d) % 2 ^ 32, (h.2.2.2.2 + e) % 2 ^ 32)

/-- SHA-1 padding: `0x80`, zeros, then the 64-bit big-endian bit length,
to a multiple of 64 bytes. -/
def sha1Pad (msg : List Nat) : List Nat :=
  let l := msg.length
  msg ++ [0x80] ++ List.replicate ((64 - (l + 9) % 64) % 64) 0 ++
    ((List.range 8).map fun i => 8 * l >>> ((7 - i) * 8) % 256)

/-- The SHA-1 digest of a byte list, as a 160-bit natural number. -/
def sha1Nat (msg : List Nat) : Nat :=
  let padded := sha1Pad msg
  let chunks := (List.range (padded.length / 64)).map fun i =>
    (padded.drop (64 * i)).take 64
  let (h0, h1, h2, h3, h4) :=
    chunks.foldl sha1Chunk (0x67452301, 0xEFCDAB89, 0x98BADCFE, 0x10325476, 0xC3D2E1F0)
  h0 * 2 ^ 128 + h1 * 2 ^ 96 + h2 * 2 ^ 64 + h3 * 2 ^ 32 + h4

/-- UTF-8 encoding of one character. -/
def utf8Char (c : Char) : List Nat :=
  let n := c.toNat
  if n < 0x80 then [n]
  else if n < 0x800 then [0xC0 + n / 0x40, 0x80 + n % 0x40]
  else if n < 0x10000 then
    [0xE0 + n / 0x1000, 0x80 + n / 0x40 % 0x40, 0x80 + n % 0x40]
  else
    [0xF0 + n / 0x40000, 0x80 + n / 0x1000 % 0x40, 0x80 + n / 0x40 % 0x40,
      0x80 + n % 0x40]

/-- UTF-8 encoding of a string (Python `str.encode("utf-8")`). -/
def utf8 (s : String) : List Nat := s.data.foldr (fun c acc => utf8Char c ++ acc) []

/-- The `len` big-endian bytes of a natural number. -/
def natToBytes (len n : Nat) : List Nat :=
  (List.range len).map fun i => n >>> ((len - 1 - i) * 8) % 256

/-- Big-endian byte list to natural number. -/
def bytesToNat (bs : List Nat) : Nat := bs.foldl (fun acc b => acc * 256 + b) 0

/-- Overwrite the version nibble (byte 6, high nibble := 5) and the variant
bits (byte 8, top two bits := `10`) of a 128-bit value, as `uuid.UUID`
does for version-5 UUIDs. -/
def setVersion5Variant (x : Nat) : Nat :=
  bytesToNat ((natToBytes 16 x).mapIdx fun i b =>
    if i = 6 then b % 16 + 0x50 else if i = 8 then b % 64 + 0x80 else b)

/-- `uuid.uuid5`: the 128-bit value of the version-5 UUID of `name` under the
namespace UUID whose big-endian bytes are `nsBytes` (SHA-1 of namespace bytes
followed by the UTF-8 name, truncated to the first 16 bytes, with version and
variant bits set). -/
def uuid5Nat (nsBytes : List Nat) (name : String) : Nat :=
  setVersion5Variant (sha1Nat (nsBytes ++ utf8 name) / 2 ^ 32)

/-- Lowercase hex digit. -/
def hexChar (n : Nat) : Char := if n < 10 then Char.ofNat (48 + n) else Char.ofNat (87 + n)

/-- The 32 hex digits of a 128-bit value, most significant first. -/
def hexDigits32 (n : Nat) : List Char :=
  (List.range 32).map fun i => hexChar (n >>> ((31 - i) * 4) % 16)

/-- `str(uuid.UUID(int=n))`: 8-4-4-4-12 lowercase hex groups. -/
def uuidToString (n : Nat) : String :=
  let h := hexDigits32 n
  String.mk (h.take 8 ++ ['-'] ++ (h.drop 8).take 4 ++ ['-'] ++ (h.drop 12).take 4 ++
    ['-'] ++ (h.drop 16).take 4 ++ ['-'] ++ h.drop 20)

/-- The 16 big-endian bytes of `uuid.NAMESPACE_DNS`
(`6ba7b810-9dad-11d1-80b4-00c04fd430c8`). -/
def NAMESPACE_DNS : List Nat :=
  [0x6b, 0xa7, 0xb8, 0x10, 0x9d, 0xad, 0x11, 0xd1, 0x80, 0xb4, 0x00, 0xc0, 0x4f,
    0xd4, 0x30, 0xc8]

set_option maxRecDepth 100000 in
/-- Sanity check of the embedded `uuid5` against the reference value of
`uuid.uuid5(uuid.NAMESPACE_DNS, "python.org")` from the Python documentation. -/
theorem uuid5_python_org :
    uuidToString (uuid5Nat NAMESPACE_DNS "python.org") =
      "886313e1-3b8a-5372-9b90-0c9aee199e5d" := by decide

/-- Python `fmt.format(**input)` restricted to the plain `\x7bkey\x7d`
placeholders this code uses (no format specs, conversions or escaped braces
appear in any template of the source): each placeholder is replaced by the
value bound to its key, a missing key raises `KeyError` (`Option.none`), an
unterminated placeholder raises `ValueError`. -/
def pyFormatScan (kvs : List (String × String)) : List Char → Option String
  | [] => some ""
  | c :: rest =>
      if c = '\x7b' then
        let key := rest.takeWhile (fun c2 => c2 ≠ '\x7d')
        match hdw : rest.dropWhile (fun c2 => c2 ≠ '\x7d') with
        | [] => Option.none
        | _ :: rest2 =>
            match kvs.find? (fun kv => kv.1 == String.mk key) with
            | some kv => (pyFormatScan kvs rest2).map (fun t => kv.2 ++ t)
            | Option.none => Option.none
      else
        (pyFormatScan kvs rest).map (fun t => String.mk [c] ++ t)
termination_by cs => cs.length
decreasing_by
  · have h2 : (rest.dropWhile (fun c2 => c2 ≠ '\x7d')).length ≤ rest.length :=
      (List.dropWhile_sublist _).length_le
    rw [hdw] at h2
    simp at h2 ⊢
    omega
  · simp

/-- `utils.get_dataset_id`: instantiate the configured id format string
(default `"\x7bdataset_id\x7d"`) over the input fields and derive a version-5
UUID string for it under `uuid5(NAMESPACE_DNS, "datalad.org")`. -/
def get_dataset_id (input config : List (String × String)) : Option String :=
  let fmt := match config.find? (fun kv => kv.1 == "dataset_id_fmt") with
    | some kv => kv.2
    | Option.none => "\x7bdataset_id\x7d"
  (pyFormatScan input fmt.data).map fun raw_id =>
    uuidToString (uuid5Nat (natToBytes 16 (uuid5Nat NAMESPACE_DNS "datalad.org")) raw_id)

/-- `utils.mint_dataset_id`: deterministic dataset id from the dataset name,
via the `"abcd-j.\x7bname\x7d"` format convention. -/
def mint_dataset_id (ds_name : String) : Option String :=
  get_dataset_id [("name", ds_name)] [("dataset_id_fmt", "abcd-j.\x7bname\x7d")]

/-! ## Field normalizers (`utils.py`)

Each normalizer takes the raw `PyVal` of its document field.  `Option.none`
models an uncaught Python exception; `some v` a returned value (`some .none`
is Python returning `None`).  A Python `for` loop over a string iterates its
characters, so a loop over a *non-empty* string raises inside the body (the
body immediately calls a dict method on the element) while a loop over `""`
simply does not run — the embeddings reflect that. -/

/-- The allow-list of output keys of `process_authors`. -/
def known_keys : List String :=
  ["name", "email", "identifiers", "givenName", "familyName", "honorificSuffix"]

/-- One iteration of the `process_authors` loop: keep allow-listed non-None
keys, then fold a truthy `orcid` into `identifiers`. -/
def process_author_one (author : PyVal) : Option PyVal :=
  match author with
  | .dict kvs =>
      let d := kvs.filter fun kv => known_keys.contains kv.1 && !(kv.2 == PyVal.none)
      let orcid := pyGet kvs "orcid" (.bool false)
      let d := if pyTruthy orcid then
          pySet d "identifiers"
            (.list [.dict [("name", .str "ORCID"), ("identifier", orcid)]])
        else d
      some (.dict d)
  | _ => Option.none

/-- `utils.process_authors`: author(s) to a list of catalog-schema authors. -/
def process_authors (authors : PyVal) : Option PyVal :=
  match authors with
  | .none => some .none
  | .dict kvs => (optMap process_author_one [.dict kvs]).map .list
  | .list xs => (optMap process_author_one xs).map .list
  | .str s => if s = "" then some (.list []) else Option.none
  | _ => Option.none

/-- `utils.process_license`: a license string becomes `{name, url}` (the
`urlparse` scheme/netloc check in the source has an empty body and no
effect, but `urlparse` itself raises on non-string input). -/
def process_license (license : PyVal) : Option PyVal :=
  match license with
  | .none => some .none
  | .str s => some (.dict [("name", .str s), ("url", .str s)])
  | _ => Option.none

/-- One iteration of the `process_publications` loop: `pop` the `citation`
key (always removed when present), and when its value was not `None`, write
it into `title` and force `authors` to `[]`.  The returned dict is the
publication dict *after mutation* — the loop mutates the caller's objects. -/
def pubStep (d : List (String × PyVal)) : List (String × PyVal) :=
  let p := pyPop d "citation"
  if p.1 ≠ PyVal.none then pySet (pySet p.2 "title" p.1) "authors" (.list []) else p.2

/-- `utils.process_publications`, embedded in state-passing style: returns
`(result, value of the argument after the call)`, because the loop body
mutates each publication dict in place via `pop` and item assignment. -/
def process_publications (publications : PyVal) : Option (PyVal × PyVal) :=
  match publications with
  | .none => some (.none, .none)
  | .dict d =>
      let d2 := pubStep d
      some (.list [.dict d2], .dict d2)
  | .list xs =>
      (optMap (fun x => match x with
          | .dict d => some (pubStep d)
          | _ => Option.none) xs).map
        fun ds => (.list (ds.map .dict), .list (ds.map .dict))
  | .str s => if s = "" then some (.list [], .str s) else Option.none
  | _ => Option.none

/-- `utils.process_funding`: wrap a single dict in a list, pass anything
else through (total). -/
def process_funding (funding : PyVal) : Option PyVal :=
  match funding with
  | .dict kvs => some (.list [.dict kvs])
  | v => some v

/-- `utils.process_keywords`: promote a single string to a one-element list,
pass anything else through (total). -/
def process_keywords (keywords : PyVal) : Option PyVal :=
  match keywords with
  | .str s => some (.list [.str s])
  | v => some v

/-- Split a character list on the space character (`str.split(" ")`-style:
adjacent separators yield empty groups; never returns `[]`). -/
def splitOnSpace : List Char → List (List Char)
  | [] => [[]]
  | c :: rest =>
      if c = ' ' then [] :: splitOnSpace rest
      else
        match splitOnSpace rest with
        | g :: gs => (c :: g) :: gs
        | [] => [[c]]

/-- Rejoin space-separated groups (`" ".join`-style). -/
def joinSpace : List (List Char) → List Char
  | [] => []
  | [g] => g
  | g :: gs => g ++ ' ' :: joinSpace gs

/-- Python `s.rpartition(" ")` reduced to the `(before, after)` pair the
caller uses: split on the *last* space; when there is no space the whole
string lands in the last component. -/
def rpartitionSpace (s : String) : String × String :=
  let parts := splitOnSpace s.data
  if parts.length ≤ 1 then ("", s)
  else (String.mk (joinSpace parts.dropLast), String.mk (parts.getLastD []))

/-- The dict branch of `process_arc`: naive name split plus email. -/
def process_arc_dict (kvs : List (String × PyVal)) : Option PyVal :=
  match pyGet kvs "name" (.str "") with
  | .str nm =>
      let p := rpartitionSpace nm
      some (.dict [("givenName", .str p.1), ("familyName", .str p.2),
        ("email", pyGet kvs "email" (.str ""))])
  | _ => Option.none

/-- `utils.process_arc`: data controller to access request contact; a list
is dereferenced at index 0 (raising on `[]`), and `.get`/`.rpartition`
raise on non-dict controllers and non-string names. -/
def process_arc (data_controller : PyVal) : Option PyVal :=
  match data_controller with
  | .none => some .none
  | .list [] => Option.none
  | .list (.dict kvs :: _) => process_arc_dict kvs
  | .list (_ :: _) => Option.none
  | .dict kvs => process_arc_dict kvs
  | _ => Option.none

mutual

/-- `utils.process_data_controller`: recursively maps over lists and tags
each dict with the schema.org Person type (the dict's own `@type`, if any,
wins the merge but keeps the first position). -/
def process_data_controller : PyVal → Option PyVal
  | .none => some .none
  | .list xs => (process_data_controllerL xs).map .list
  | .dict kvs =>
      some (.dict (pyUnion [("@type", .str "https://schema.org/Person")] kvs))
  | _ => Option.none

/-- The list comprehension inside `process_data_controller`. -/
def process_data_controllerL : List PyVal → Option (List PyVal)
  | [] => some []
  | x :: xs => do
      let y ← process_data_controller x
      let ys ← process_data_controllerL xs
      return y :: ys

end

/-- Python `"\n\n".join(paragraphs)`: join strings with a blank line. -/
def joinBlank : List String → String
  | [] => ""
  | [s] => s
  | s :: rest => s ++ "\n\n" ++ joinBlank rest

mutual

/-- `utils.process_used_for`: activity dict(s) to schema.org Thing(s);
multi-paragraph descriptions (a list of strings) are joined with blank
lines. -/
def process_used_for : PyVal → Option PyVal
  | .list xs => (process_used_forL xs).map .list
  | .none => some .none
  | .dict kvs =>
      let thing := pySet [("@type", .str "https://schema.org/Thing")] "name"
        (pyGet kvs "title" (.str ""))
      let url := pyGet kvs "url" (.bool false)
      let thing := if pyTruthy url then pySet thing "url" url else thing
      let desc := pyGet kvs "description" (.bool false)
      if pyTruthy desc then
        let dOpt : Option PyVal := match desc with
          | .list ps =>
              (optMap (fun v => match v with
                  | .str s => some s
                  | _ => Option.none) ps).map
                fun ss => PyVal.str (joinBlank ss)
          | v => some v
        dOpt.map fun d => .dict (pySet thing "description" d)
      else
        some (.dict thing)
  | _ => Option.none

/-- The list comprehension inside `process_used_for`. -/
def process_used_forL : List PyVal → Option (List PyVal)
  | [] => some []
  | x :: xs => do
      let y ← process_used_for x
      let ys ← process_used_forL xs
      return y :: ys

end

/-- `f.get(k, \x7b\x7d).get("@value")`: read a typed-value wrapper, raising
when the value stored under `k` is not a dict. -/
def getWrapValue (kvs : List (String × PyVal)) (k : String) : Option PyVal :=
  match pyGet kvs k (.dict []) with
  | .dict w => some (pyGet w "@value" .none)
  | _ => Option.none

/-- The `if d.get("contentbytesize", False): d["contentbytesize"] =
int(d["contentbytesize"])` step of `process_file`. -/
def process_file_coerce (d : List (String × PyVal)) : Option (List (String × PyVal)) :=
  if pyTruthy (pyGet d "contentbytesize" (.bool false)) then
    (pyInt (pyGet d "contentbytesize" (.bool false))).map
      fun n => pySet d "contentbytesize" (.int n)
  else some d

/-- `utils.process_file`: extract `path` (falling back to `name`),
`contentbytesize` (coerced by `int(...)` when truthy) and `url` from a file
entry, then drop `None`-valued keys. -/
def process_file (f : PyVal) : Option PyVal :=
  match f with
  | .dict kvs => do
      let path ← getWrapValue kvs "path"
      let cbs ← getWrapValue kvs "contentbytesize"
      let d := [("path", path), ("contentbytesize", cbs),
        ("url", pyGet kvs "url" .none)]
      let d ← if pyGet kvs "path" .none = PyVal.none then
          if pyGet kvs "name" .none ≠ PyVal.none then
            (getWrapValue kvs "name").map fun nv => pySet d "path" nv
          else some d
        else some d
      let d ← process_file_coerce d
      return PyVal.dict (d.filter fun kv => !(kv.2 == PyVal.none))
  | _ => Option.none

mutual

/-- `utils.process_homepage`: wrap a URL — or, recursively, each entry of a
list — with the schema.org URL type tag.  Total: no branch raises. -/
def process_homepage : PyVal → PyVal
  | .none => .none
  | .list xs => .list (process_homepageL xs)
  | v => .dict [("@type", .str "https://schema.org/URL"), ("@value", v)]

/-- The list comprehension inside `process_homepage`. -/
def process_homepageL : List PyVal → List PyVal
  | [] => []
  | x :: xs => process_homepage x :: process_homepageL xs

end

/-- One subdataset entry mapped into the record's `subdatasets` shape (note:
a missing `url` key yields an explicit `dataset_url: None` entry). -/
def subdatasetItem (kvs : List (String × PyVal)) : PyVal :=
  .dict [("dataset_id", pyGet kvs "identifier" .none),
    ("dataset_version", pyGet kvs "version" .none),
    ("dataset_path", pyGet kvs "path_posix" .none),
    ("dataset_url", pyGet kvs "url" .none)]

/-- `utils.process_subdatasets`: `None` yields `[]`, a list maps each entry,
a dict yields a one-element list; any other input falls past both
`isinstance` checks and the function implicitly returns `None`. -/
def process_subdatasets (subdatasets : PyVal) : Option PyVal :=
  match subdatasets with
  | .none => some (.list [])
  | .list xs =>
      (optMap (fun x => match x with
          | .dict kvs => some (subdatasetItem kvs)
          | _ => Option.none) xs).map .list
  | .dict kvs => some (.list [subdatasetItem kvs])
  | _ => some .none

/-- Sanity check against the spec's author test vector: an `orcid` key is
folded into `identifiers` and not retained verbatim. -/
theorem process_authors_orcid_vector :
    process_authors (.dict [("name", .str "A B"), ("orcid", .str "0000-0001-2345-6789")]) =
      some (.list [.dict [("name", .str "A B"),
        ("identifiers", .list [.dict [("name", .str "ORCID"),
          ("identifier", .str "0000-0001-2345-6789")]])]]) := by decide

/-- Sanity check against the spec's file-entry test vector: wrapped values
are unwrapped and the byte size is coerced to an integer. -/
theorem process_file_vector :
    process_file (.dict [("path", .dict [("@value", .str "a/b.txt")]),
        ("contentbytesize", .dict [("@value", .str "120")])]) =
      some (.dict [("path", .str "a/b.txt"), ("contentbytesize", .int 120)]) := by decide

/-! ## Term enrichment (`queries.py`)

The ontology lookup service is abstracted as a function from the queried
term to its HTTP response: a status code and the parsed JSON body.  URL
construction (lowercased ontology prefix, double percent-encoding) and the
`requests_cache` session select *which* response comes back and how fast,
but not what `ols_lookup` does with it, so they are folded into the
response function.  A warning is recorded as the `(term, status)` pair of
the `warnings.warn` call. -/

/-- An HTTP response from the ontology lookup service. -/
structure Response where
  status : Nat
  body : PyVal

/-- `queries.ols_lookup`: the parsed JSON body on a 200 response; on any
other status, a non-fatal warning and Python `None` (never an exception). -/
def ols_lookup (resp : String → Response) (term : String) :
    Option PyVal × List (String × Nat) :=
  let r := resp term
  if r.status = 200 then (some r.body, []) else (Option.none, [(term, r.status)])

/-- The synonym scan inside `repr_ncbitaxon`: first entry whose `scope` is
`hasExactSynonym` and whose `type` is `genbank common name`; iterating past
a non-dict entry raises. -/
def findGenbankSynonym : List PyVal → Option (Option PyVal)
  | [] => some Option.none
  | .dict s :: rest =>
      if pyGet s "scope" .none == PyVal.str "hasExactSynonym" &&
          pyGet s "type" .none == PyVal.str "genbank common name" then
        some (some (pyGet s "name" .none))
      else findGenbankSynonym rest
  | _ :: _ => Option.none

/-- `queries.repr_ncbitaxon`: OLS response to an OpenMINDS Species dict; a
`None` response (non-200 lookup) returns the `default` argument unchanged.
A single `obo_synonym` dict is promoted to a one-element list before the
synonym scan. -/
def repr_ncbitaxon (ols_response : Option PyVal) (dflt : PyVal) : Option PyVal :=
  match ols_response with
  | Option.none => some dflt
  | some (.dict d) =>
      let species := [("@type", PyVal.str "https://openminds.ebrains.eu/controlledTerms/Species"),
        ("name", pyGet d "label" .none),
        ("preferredOntologyIdentifier", pyGet d "iri" .none)]
      let obo := pyGet d "obo_synonym" (.list [])
      let items : Option (List PyVal) := match obo with
        | .dict s => some [.dict s]
        | .list xs => some xs
        | .str s => if s = "" then some [] else Option.none
        | _ => Option.none
      match items with
      | Option.none => Option.none
      | some items =>
          (findGenbankSynonym items).map fun syn =>
            match syn with
            | some v => .dict (pySet species "synonym" v)
            | Option.none => .dict species
  | some _ => Option.none

/-- `queries.repr_uberon`: OLS response to an OpenMINDS UBERONParcellation
dict; a `None` response returns the `default` argument unchanged. -/
def repr_uberon (ols_response : Option PyVal) (dflt : PyVal) : Option PyVal :=
  match ols_response with
  | Option.none => some dflt
  | some (.dict d) =>
      some (.dict [("@type", PyVal.str "https://openminds.ebrains.eu/controlledTerms/UBERONParcellation"),
        ("name", pyGet d "label" .none),
        ("preferredOntologyIdentifier", pyGet d "iri" .none)])
  | some _ => Option.none

/-- `queries.process_ols_term`: look up a single term, a list of terms, or
`None`, and apply `filter_func` with the original term as its default;
returns the representation(s) along with all recorded warnings. -/
def process_ols_term (resp : String → Response)
    (filter_func : Option PyVal → PyVal → Option PyVal) (term : PyVal) :
    Option (PyVal × List (String × Nat)) :=
  match term with
  | .list ts =>
      (optMap (fun t => match t with
          | PyVal.str s =>
              let lk := ols_lookup resp s
              (filter_func lk.1 (.str s)).map fun r => (r, lk.2)
          | _ => Option.none) ts).map
        fun pairs => (.list (pairs.map Prod.fst),
          (pairs.map Prod.snd).foldr (· ++ ·) [])
  | .str s =>
      let lk := ols_lookup resp s
      (filter_func lk.1 (.str s)).map fun r => (r, lk.2)
  | _ => some (.none, [])

/-! ## Record assembly (`get_tabby_metadata.get_tabby_metadata`, lines 86-163)

The loading and JSON-LD compaction of the tabby file (external
`load_tabby` / `pyld`) produce the `compacted` document, taken here as the
input.  `datalad_catalog.schema_utils.get_metadata_item` is an external
collaborator; its dataset-level and file-level base records are parameters
(`meta_base`, `file_base`).  The embedding covers everything the function
itself does from there: the normalizer applications in source order, the
additional-display block with its `None`-dropping content filter, the
top-level `None`-stripping of the dataset record, and the per-file records
built by merging the file base with each `process_file` result. -/

/-- The fixed `@context` of the additional-display block. -/
def additionalDisplayContext : PyVal :=
  .dict [("homepage", .str "https://schema.org/mainEntityOfPage"),
    ("data controller", .str "https://w3id.org/dpv#hasDataController"),
    ("sample (organism)", .str "https://openminds.ebrains.eu/controlledTerms/Species"),
    ("sample (organism part)", .str "https://openminds.ebrains.eu/controlledTerms/UBERONParcellation"),
    ("used for", .str "http://www.w3.org/ns/prov#hadUsage")]

/-- The dataset-record field assignments of `get_tabby_metadata` (source
lines 94-104): apply each normalizer to its document field and set the
result on the base record, in source order. -/
def tabby_meta_fields (compacted meta_base : List (String × PyVal)) :
    Option (List (String × PyVal)) := do
  let m := pySet meta_base "name" (pyGet compacted "title" (.str ""))
  let lic ← process_license (pyGet compacted "license" .none)
  let m := pySet m "license" lic
  let m := pySet m "description" (pyGet compacted "description" (.str ""))
  let m := pySet m "doi" (pyGet compacted "doi" (.str ""))
  let au ← process_authors (pyGet compacted "authors" .none)
  let m := pySet m "authors" au
  let kw ← process_keywords (pyGet compacted "keywords" .none)
  let m := pySet m "keywords" kw
  let fu ← process_funding (pyGet compacted "funding" .none)
  let m := pySet m "funding" fu
  let pubres ← process_publications (pyGet compacted "publications" .none)
  let m := pySet m "publications" pubres.1
  let arc ← process_arc (pyGet compacted "dataController" .none)
  let m := pySet m "access_request_contact" arc
  let sd ← process_subdatasets (pyGet compacted "subdatasets" .none)
  let m := pySet m "subdatasets" sd
  return pySet m "url" (pyGet compacted "homepage" .none)

/-- The `additional_display` block of `get_tabby_metadata` (source lines
105-135): term enrichment, homepage/data-controller/used-for tags, fixed
context, with `None`-valued content entries dropped. -/
def tabby_additional_display (resp : String → Response)
    (compacted : List (String × PyVal)) : Option PyVal := do
  let org ← process_ols_term resp repr_ncbitaxon (pyGet compacted "sampleOrganism" .none)
  let part ← process_ols_term resp repr_uberon (pyGet compacted "samplePart" .none)
  let dc ← process_data_controller (pyGet compacted "dataController" .none)
  let uf ← process_used_for (pyGet compacted "usedFor" .none)
  let additional_content : List (String × PyVal) :=
    [("@context", additionalDisplayContext),
      ("sample (organism)", org.1),
      ("sample (organism part)", part.1),
      ("homepage", process_homepage (pyGet compacted "homepage" .none)),
      ("data controller", dc),
      ("used for", uf)]
  return .list [.dict [("name", .str "ABCD-J"), ("icon", .str "fa-solid fa-graduation-cap"),
    ("content", .dict (additional_content.filter fun kv => !(kv.2 == PyVal.none)))]]

/-- The per-file records of `get_tabby_metadata` (source lines 153-161):
the document's file list (a non-list value is wrapped), each entry
normalized by `process_file` and merged over the file base record. -/
def tabby_file_records (compacted file_base : List (String × PyVal)) :
    Option (List PyVal) :=
  let fileItems := match pyGet compacted "fileList" (.list []) with
    | .list xs => xs
    | v => [v]
  optMap (fun fi => (process_file fi).map fun pf =>
    match pf with
    | .dict pfd => PyVal.dict (pyUnion file_base pfd)
    | v => v) fileItems

/-- `get_tabby_metadata` from the compacted document on: the field
assignments, the additional-display block set on the record, the top-level
`None` stripping, then the file records.  Returns the dataset-level record
and the list of file records. -/
def get_tabby_metadata (resp : String → Response) (compacted : List (String × PyVal))
    (meta_base file_base : List (String × PyVal)) : Option (PyVal × List PyVal) := do
  let m ← tabby_meta_fields compacted meta_base
  let addl ← tabby_additional_display resp compacted
  let m := pySet m "additional_display" addl
  let m := m.filter fun kv => !(kv.2 == PyVal.none)
  let files ← tabby_file_records compacted file_base
  return (.dict m, files)

/-! ## Subdataset registry reconciliation (`process_subdirectory.py`, step 3)

The registry is the tab-separated `subdatasets@tby-abcdjv0.tsv` file, one
row per subdataset reference.  The script reads the current rows twice — as
`existing_subdatasets` through the home record (where `process_subdatasets`
renames the columns) and as `all_rows` through `csv.DictReader` — and both
views carry the same `(identifier, version, path_posix)` triples, so the
embedding works on the single row list.  A missing registry file behaves as
the empty row list (the script then creates the file with the single new
row).  The `--ignore-super` command-line flag, which disables the write
entirely, is the `ignoreSuper` parameter. -/

/-- One row of the subdataset registry. -/
structure SubdsRow where
  dataset_type : String
  identifier : String
  version : String
  path_posix : String
  url : Option String
deriving DecidableEq

/-- The `find_subdataset` test: same identifier, same version, same path. -/
def sameExact (r c : SubdsRow) : Bool :=
  r.identifier == c.identifier && r.version == c.version && r.path_posix == c.path_posix

/-- The `find_subds_prior` / `prior_subds_i` test: same identifier and path,
different version. -/
def samePrior (r c : SubdsRow) : Bool :=
  r.identifier == c.identifier && r.version != c.version && r.path_posix == c.path_posix

/-- Step 3 of `process_subdirectory.py` as a function of the current registry
rows and the candidate reference: skip when an exact row already exists (or
when `--ignore-super` was given); otherwise replace the first same-key row
with a stale version in place, or append at the end.  The boolean is
`subdataset_added`, i.e. whether the registry was (re)written. -/
def reconcileSubdataset (ignoreSuper : Bool) (rows : List SubdsRow) (cand : SubdsRow) :
    List SubdsRow × Bool :=
  if (rows.filter fun r => sameExact r cand).length == 0 && !ignoreSuper then
    match rows.findIdx? (fun r => samePrior r cand) with
    | some i => (rows.set i cand, true)
    | Option.none => (rows ++ [cand], true)
  else (rows, false)

/-! ## Helper lemmas -/

theorem optMap_eq_some_map {f : α → Option β} {g : α → β} :
    ∀ {l : List α}, (∀ a ∈ l, f a = some (g a)) → optMap f l = some (l.map g)
  | [], _ => rfl
  | a :: as, h => by
      have ha := h a (List.mem_cons_self a as)
      have has := optMap_eq_some_map (fun x hx => h x (List.mem_cons_of_mem a hx))
      simp [optMap, ha, has]

theorem pyPop_of_find_none {d : List (String × PyVal)} {k : String}
    (h : d.find? (fun kv => kv.1 == k) = Option.none) : pyPop d k = (.none, d) := by
  induction d with
  | nil => rfl
  | cons kv rest ih =>
      rw [List.find?_cons] at h
      by_cases hk : kv.1 == k
      · simp [hk] at h
      · simp only [hk] at h
        simp [pyPop, hk, ih h]

/-! ## C10 — `process_subdatasets` on non-None/dict/list input -/

/-- C10 (confirmed): `process_subdatasets` yields `[]` for `None`, a
one-element list for a dict, a list whenever it returns on list input, and
Python `None` (not a list) for any other input shape such as a bare string,
int or bool. -/
theorem claim_C10 :
    process_subdatasets PyVal.none = some (.list []) ∧
    (∀ kvs, process_subdatasets (.dict kvs) = some (.list [subdatasetItem kvs])) ∧
    (∀ xs r, process_subdatasets (.list xs) = some r → ∃ ys, r = PyVal.list ys) ∧
    (∀ s, process_subdatasets (.str s) = some PyVal.none) ∧
    (∀ n, process_subdatasets (.int n) = some PyVal.none) ∧
    (∀ b, process_subdatasets (.bool b) = some PyVal.none) := by
  refine ⟨rfl, fun kvs => rfl, ?_, fun s => rfl, fun n => rfl, fun b => rfl⟩
  intro xs r h
  simp only [process_subdatasets, Option.map_eq_some'] at h
  obtain ⟨ys, -, hy⟩ := h
  exact ⟨ys, hy.symm⟩

/-- C10 witness: the list case at a concrete input. -/
theorem claim_C10_witness :
    ∃ ys, PyVal.list [subdatasetItem [("identifier", .str "X")]] = PyVal.list ys :=
  claim_C10.2.2.1 [.dict [("identifier", .str "X")]] _ (by decide)

/-! ## C2 — list/singleton equivalence of the normalizers -/

/-- C2 (corrected), counterexample: `process_homepage` on a single URL
returns the tagged dict itself, but on the equivalent one-element list it
returns a one-element *list* of tagged dicts, so the outputs differ. -/
theorem claim_C2_counterexample :
    process_homepage (.str "https://www.abcd-j.de") ≠
      process_homepage (.list [.str "https://www.abcd-j.de"]) := by decide

/-- C2 (amended): `process_authors`, `process_keywords`, `process_funding`,
`process_publications` (result values), `process_arc` and
`process_subdatasets` give identical output on a single object and on the
equivalent one-element list; `process_data_controller`, `process_used_for`
and `process_homepage` instead map over lists, so the one-element-list
output is the one-element list of the single-object output; and
`process_license` and `process_file` raise on any list input. -/
theorem claim_C2_amended :
    (∀ kvs, process_authors (.dict kvs) = process_authors (.list [.dict kvs])) ∧
    (∀ s, process_keywords (.str s) = process_keywords (.list [.str s])) ∧
    (∀ kvs, process_funding (.dict kvs) = process_funding (.list [.dict kvs])) ∧
    (∀ kvs, (process_publications (.dict kvs)).map Prod.fst =
      (process_publications (.list [.dict kvs])).map Prod.fst) ∧
    (∀ kvs, process_arc (.dict kvs) = process_arc (.list [.dict kvs])) ∧
    (∀ kvs, process_subdatasets (.dict kvs) = process_subdatasets (.list [.dict kvs])) ∧
    (∀ x, process_data_controller (.list [x]) =
      (process_data_controller x).map fun y => .list [y]) ∧
    (∀ x, process_used_for (.list [x]) =
      (process_used_for x).map fun y => .list [y]) ∧
    (∀ x, process_homepage (.list [x]) = .list [process_homepage x]) ∧
    (∀ x, process_license (.list [x]) = Option.none) ∧
    (∀ x, process_file (.list [x]) = Option.none) := by
  refine ⟨fun kvs => rfl, fun s => rfl, fun kvs => rfl, ?_, fun kvs => rfl,
    ?_, ?_, ?_, fun x => rfl, fun x => rfl, fun x => rfl⟩
  · intro kvs
    simp [process_publications, optMap]
  · intro kvs
    simp [process_subdatasets, optMap]
  · intro x
    simp only [process_data_controller, process_data_controllerL]
    cases process_data_controller x <;> simp
  · intro x
    simp only [process_used_for, process_used_forL]
    cases process_used_for x <;> simp

/-! ## C8 — totality of the normalizers on shape-variant input -/

/-- Well-formedness of a file entry dict sufficient for `process_file` to
return: the `path` and `contentbytesize` entries are typed-value wrappers
(dicts) when present, the `name` fallback (only consulted when `path` is
missing and `name` is not) is a wrapper, and a truthy extracted byte size is
`int(...)`-coercible. -/
def fileOk (kvs : List (String × PyVal)) : Bool :=
  match getWrapValue kvs "path", getWrapValue kvs "contentbytesize" with
  | some _, some cb =>
      (!(pyGet kvs "path" .none == PyVal.none) || (pyGet kvs "name" .none == PyVal.none) ||
        (getWrapValue kvs "name").isSome) &&
      (!(pyTruthy cb) || (pyInt cb).isSome)
  | _, _ => false

/-- C8 (corrected), counterexample: `process_file` raises on absent (`None`)
and on scalar input, and `process_arc` raises on scalar input — both are
merely-differently-shaped inputs on which the claim says no normalizer ever
raises. -/
theorem claim_C8_counterexample :
    process_file PyVal.none = Option.none ∧
    process_file (.str "f.txt") = Option.none ∧
    process_arc (.str "contact") = Option.none := by decide

/-- C8 (amended): every normalizer except `process_file` returns (rather
than raising) on absent input; `process_funding` and `process_keywords` are
total on all inputs (`process_homepage` is total by construction);
`process_file` returns on every well-formed wrapper-shaped dict, and
`process_arc` returns on every dict whose `name` entry (defaulting to `""`)
is a string and on every non-empty list headed by such a dict; but
`process_file` raises on `None` and `process_arc` raises on the empty
list. -/
theorem claim_C8_amended :
    (process_authors PyVal.none).isSome ∧
    (process_license PyVal.none).isSome ∧
    (process_publications PyVal.none).isSome ∧
    (process_arc PyVal.none).isSome ∧
    (process_data_controller PyVal.none).isSome ∧
    (process_used_for PyVal.none).isSome ∧
    (process_subdatasets PyVal.none).isSome ∧
    (∀ x, (process_funding x).isSome) ∧
    (∀ x, (process_keywords x).isSome) ∧
    (∀ kvs, fileOk kvs = true → (process_file (.dict kvs)).isSome) ∧
    (∀ kvs rest, (∃ nm, pyGet kvs "name" (.str "") = PyVal.str nm) →
      (process_arc (.dict kvs)).isSome ∧
      (process_arc (.list (.dict kvs :: rest))).isSome) ∧
    process_file PyVal.none = Option.none ∧
    process_arc (.list []) = Option.none := by
  refine ⟨rfl, rfl, rfl, rfl, rfl, rfl, rfl,
    fun x => by cases x <;> simp [process_funding],
    fun x => by cases x <;> simp [process_keywords],
    ?_, ?_, rfl, rfl⟩
  · intro kvs hok
    unfold fileOk at hok
    rcases hp : getWrapValue kvs "path" with - | p <;> rw [hp] at hok
    · exact absurd hok (by simp)
    rcases hc : getWrapValue kvs "contentbytesize" with - | cb <;> rw [hc] at hok
    · exact absurd hok (by simp)
    simp only [Bool.and_eq_true, Bool.or_eq_true] at hok
    obtain ⟨hname, hcoerce⟩ := hok
    have hco : ∀ d : List (String × PyVal),
        pyGet d "contentbytesize" (.bool false) = cb →
        ∃ y, process_file_coerce d = some y := by
      intro d hd
      unfold process_file_coerce
      rw [hd]
      rcases hcb : pyTruthy cb
      · simp
      · rcases hcoerce with h | h
        · rw [hcb] at h; simp at h
        · rcases hn : pyInt cb with - | n
          · rw [hn] at h; simp at h
          · exact ⟨pySet d "contentbytesize" (.int n), by simp [hcb, hn]⟩
    simp only [process_file, hp, hc, Option.bind_eq_bind, Option.some_bind]
    by_cases hpath : pyGet kvs "path" PyVal.none = PyVal.none
    · by_cases hnm2 : pyGet kvs "name" PyVal.none = PyVal.none
      · obtain ⟨y, hy⟩ := hco
          [("path", p), ("contentbytesize", cb), ("url", pyGet kvs "url" PyVal.none)] rfl
        simp [hpath, hnm2, hy]
      · rcases hname with (hname | hname) | hname
        · rw [hpath] at hname
          exact absurd hname (by decide)
        · exact absurd ((PyVal.beq_iff _ _).mp (by simpa using hname)) hnm2
        · rw [Option.isSome_iff_exists] at hname
          obtain ⟨nv, hw⟩ := hname
          obtain ⟨y, hy⟩ := hco
            (pySet [("path", p), ("contentbytesize", cb),
              ("url", pyGet kvs "url" PyVal.none)] "path" nv) rfl
          simp [hpath, hnm2, hw, hy]
    · obtain ⟨y, hy⟩ := hco
        [("path", p), ("contentbytesize", cb), ("url", pyGet kvs "url" PyVal.none)] rfl
      simp [hpath, hy]
  · intro kvs rest hnm
    obtain ⟨nm, hnm⟩ := hnm
    constructor
    · simp [process_arc, process_arc_dict, hnm]
    · simp [process_arc, process_arc_dict, hnm]

/-- C8 witness: the hypothesis-bearing cases at concrete inputs — a
wrapper-shaped file entry and a dict data controller with a string name. -/
theorem claim_C8_witness :
    (process_file (.dict [("path", .dict [("@value", .str "a/b.txt")])])).isSome ∧
    (process_arc (.dict [("name", .str "Jane Doe")])).isSome := by
  obtain ⟨-, -, -, -, -, -, -, -, -, hfile, harc, -, -⟩ := claim_C8_amended
  exact ⟨hfile _ (by decide), (harc _ [] ⟨"Jane Doe", by decide⟩).1⟩

/-! ## C9 — normalizers and mutation of their argument

All normalizers except `process_publications` only build fresh objects, so
their embeddings are plain functions of the argument value.
`process_publications` calls `publication.pop("citation", None)` and assigns
`publication["title"]`/`publication["authors"]` on the caller's dicts; its
embedding returns the post-call value of the argument, about which the
theorems below speak. -/

theorem pySet_find_ne {k k' : String} (h : (k == k') = false) :
    ∀ (d : List (String × PyVal)) (v : PyVal),
      (pySet d k v).find? (fun kv => kv.1 == k') = d.find? (fun kv => kv.1 == k')
  | [], v => by simp [pySet, List.find?, h]
  | (k0, v0) :: rest, v => by
      by_cases hk : (k0 == k) = true
      · have hk0 : k0 = k := by simpa using hk
        simp only [pySet, hk, if_true]
        simp [List.find?, hk0, h]
      · simp only [pySet, hk, if_false, Bool.false_eq_true]
        simp only [List.find?]
        cases hpred : (k0 == k') <;> simp [pySet_find_ne h rest v, hpred]

theorem pyPop_snd_find_none {k : String} :
    ∀ {d : List (String × PyVal)}, (d.map Prod.fst).Nodup →
      ((pyPop d k).2.find? (fun kv => kv.1 == k)) = Option.none
  | [], _ => rfl
  | (k0, v0) :: rest, hnd => by
      simp only [List.map_cons, List.nodup_cons] at hnd
      obtain ⟨hk0, hrest⟩ := hnd
      by_cases hk : (k0 == k) = true
      · have hk0k : k0 = k := by simpa using hk
        simp only [pyPop, hk, if_true]
        rw [List.find?_eq_none]
        intro kv hkv
        subst hk0k
        simp only [beq_iff_eq]
        intro hcontra
        exact hk0 (hcontra ▸ List.mem_map_of_mem Prod.fst hkv)
      · simp only [pyPop, hk, if_false, Bool.false_eq_true]
        simp only [List.find?, hk]
        exact pyPop_snd_find_none hrest

theorem pubStep_find_citation_none {d : List (String × PyVal)}
    (hnd : (d.map Prod.fst).Nodup) :
    (pubStep d).find? (fun kv => kv.1 == "citation") = Option.none := by
  unfold pubStep
  by_cases hcit : (pyPop d "citation").1 ≠ PyVal.none
  · rw [if_pos hcit, pySet_find_ne (by decide), pySet_find_ne (by decide)]
    exact pyPop_snd_find_none hnd
  · rw [if_neg hcit]
    exact pyPop_snd_find_none hnd

/-- C9 (corrected), counterexample: passing a publication list with a
`citation` entry through `process_publications` leaves the caller's list
changed — the citation key is popped and `title`/`authors` are written — so
the input document value is not unchanged after the call. -/
theorem claim_C9_counterexample :
    (process_publications
        (.list [.dict [("citation", .str "Doe 2020"), ("doi", .str "d")]])).map
        Prod.snd ≠
      some (.list [.dict [("citation", .str "Doe 2020"), ("doi", .str "d")]]) := by decide

/-- C9 (amended): the normalizers are side-effect-free on their argument
except `process_publications`, which mutates each publication dict in place:
after the call the argument value is the list of `pubStep`-rewritten dicts;
it is unchanged exactly when no publication dict carries a `citation` key,
and any dict with a `citation` key (unique keys, as in any Python dict) is
really changed. -/
theorem claim_C9_amended : ∀ ds : List (List (String × PyVal)),
    ((process_publications (.list (ds.map PyVal.dict))).map Prod.snd =
      some (.list (ds.map fun d => PyVal.dict (pubStep d)))) ∧
    ((∀ d ∈ ds, d.find? (fun kv => kv.1 == "citation") = Option.none) →
      (process_publications (.list (ds.map PyVal.dict))).map Prod.snd =
        some (.list (ds.map PyVal.dict))) ∧
    (∀ d : List (String × PyVal), (d.map Prod.fst).Nodup →
      (d.find? (fun kv => kv.1 == "citation")).isSome → pubStep d ≠ d) := by
  intro ds
  have h1 : optMap (fun x => match x with
      | PyVal.dict d => some (pubStep d)
      | _ => Option.none) (ds.map PyVal.dict) = some (ds.map pubStep) := by
    induction ds with
    | nil => rfl
    | cons d rest ih => simp [optMap, ih]
  refine ⟨?_, ?_, ?_⟩
  · simp [process_publications, h1, Function.comp_def]
  · intro hnone
    have heq : ds.map (fun d => PyVal.dict (pubStep d)) = ds.map PyVal.dict := by
      apply List.map_congr_left
      intro d hd
      have hstep : pubStep d = d := by
        unfold pubStep
        rw [pyPop_of_find_none (hnone d hd)]
        simp
      rw [hstep]
    have hc1 : (process_publications (.list (ds.map PyVal.dict))).map Prod.snd =
        some (.list (ds.map fun d => PyVal.dict (pubStep d))) := by
      simp [process_publications, h1, Function.comp_def]
    rw [hc1, heq]
  · intro d hnd hcit heq
    have hfind := pubStep_find_citation_none hnd
    rw [heq] at hfind
    rw [hfind] at hcit
    simp at hcit

/-- C9 witness: the hypothesis-bearing parts at concrete inputs — a
citation-free publication list passes through unchanged, and a dict with a
`citation` key is really mutated. -/
theorem claim_C9_witness :
    (process_publications (.list [PyVal.dict [("doi", .str "d")]])).map Prod.snd =
      some (.list [PyVal.dict [("doi", .str "d")]]) ∧
    pubStep [("citation", PyVal.str "c")] ≠ [("citation", PyVal.str "c")] := by
  refine ⟨(claim_C9_amended [[("doi", PyVal.str "d")]]).2.1 ?_, ?_⟩
  · intro d hd
    simp only [List.mem_singleton] at hd
    subst hd
    rfl
  exact (claim_C9_amended []).2.2 [("citation", PyVal.str "c")] (by decide) (by decide)

/-! ## C3/C4/C5 — subdataset registry reconciliation -/

/-- Same logical registry key: identifier and POSIX path. -/
def sameKey (r c : SubdsRow) : Bool :=
  r.identifier == c.identifier && r.path_posix == c.path_posix

theorem reconcile_of_exact (rows : List SubdsRow) (cand : SubdsRow)
    (hex : ∃ r ∈ rows, sameExact r cand = true) :
    reconcileSubdataset false rows cand = (rows, false) := by
  obtain ⟨r, hr, hexact⟩ := hex
  unfold reconcileSubdataset
  rw [if_neg]
  intro hcond
  simp only [Bool.and_eq_true, Bool.not_false, and_true, beq_iff_eq] at hcond
  have hmem : r ∈ rows.filter (fun r => sameExact r cand) :=
    List.mem_filter.mpr ⟨hr, hexact⟩
  rw [List.length_eq_zero.mp hcond] at hmem
  exact absurd hmem (List.not_mem_nil r)

theorem reconcile_changed_of_no_exact (rows : List SubdsRow) (cand : SubdsRow)
    (hno : ∀ r ∈ rows, sameExact r cand = false) :
    (reconcileSubdataset false rows cand).2 = true := by
  unfold reconcileSubdataset
  rw [if_pos]
  · rcases rows.findIdx? (fun r => samePrior r cand) with - | i <;> rfl
  · rw [List.filter_eq_nil_iff.mpr (fun r hr => by simp [hno r hr])]
    simp

/-- C3 (confirmed): the reconciliation performs exactly the three-state
transition — append when no row shares the `(identifier, path_posix)` key,
no-op (reporting `changed = false`) when an exact-version row exists,
in-place replacement of the first stale-version row otherwise — and
`changed = false` happens only in the exact-version case. -/
theorem claim_C3 : ∀ (rows : List SubdsRow) (cand : SubdsRow),
    ((∀ r ∈ rows, ¬(r.identifier = cand.identifier ∧ r.path_posix = cand.path_posix)) →
      reconcileSubdataset false rows cand = (rows ++ [cand], true)) ∧
    ((∃ r ∈ rows, r.identifier = cand.identifier ∧ r.path_posix = cand.path_posix ∧
        r.version = cand.version) →
      reconcileSubdataset false rows cand = (rows, false)) ∧
    (∀ i, (hi : i < rows.length) →
      (∀ r ∈ rows, ¬(r.identifier = cand.identifier ∧ r.path_posix = cand.path_posix ∧
        r.version = cand.version)) →
      samePrior rows[i] cand = true →
      (∀ j, (hj : j < i) → samePrior rows[j] cand = false) →
      reconcileSubdataset false rows cand = (rows.set i cand, true)) ∧
    ((reconcileSubdataset false rows cand).2 = false →
      ∃ r ∈ rows, r.identifier = cand.identifier ∧ r.path_posix = cand.path_posix ∧
        r.version = cand.version) := by
  intro rows cand
  refine ⟨?_, ?_, ?_, ?_⟩
  · intro h
    unfold reconcileSubdataset
    rw [if_pos, List.findIdx?_eq_none_iff.mpr]
    · intro r hr
      by_cases hid : r.identifier = cand.identifier
      · by_cases hpath : r.path_posix = cand.path_posix
        · exact absurd ⟨hid, hpath⟩ (h r hr)
        · simp [samePrior, hpath]
      · simp [samePrior, hid]
    · rw [List.filter_eq_nil_iff.mpr]
      · simp
      · intro r hr
        simp only [sameExact, Bool.and_eq_true, beq_iff_eq]
        rintro ⟨⟨h1, -⟩, h3⟩
        exact h r hr ⟨h1, h3⟩
  · rintro ⟨r, hr, h1, h2, h3⟩
    refine reconcile_of_exact rows cand ⟨r, hr, ?_⟩
    simp only [sameExact, Bool.and_eq_true, beq_iff_eq]
    exact ⟨⟨h1, h3⟩, h2⟩
  · intro i hi hnoexact hprior hbefore
    unfold reconcileSubdataset
    rw [if_pos, List.findIdx?_eq_some_iff_getElem.mpr ⟨hi, hprior, ?_⟩]
    · intro j hj
      simp [hbefore j hj]
    · rw [List.filter_eq_nil_iff.mpr]
      · simp
      · intro r hr
        simp only [sameExact, Bool.and_eq_true, beq_iff_eq]
        rintro ⟨⟨h1, h2⟩, h3⟩
        exact hnoexact r hr ⟨h1, h3, h2⟩
  · intro hfalse
    by_cases hall : ∀ r ∈ rows, sameExact r cand = false
    · rw [reconcile_changed_of_no_exact rows cand hall] at hfalse
      exact absurd hfalse (by simp)
    · push_neg at hall
      obtain ⟨r, hr, hex⟩ := hall
      have hex2 : sameExact r cand = true := by
        revert hex
        cases sameExact r cand <;> simp
      simp only [sameExact, Bool.and_eq_true, beq_iff_eq] at hex2
      exact ⟨r, hr, hex2.1.1, hex2.2, hex2.1.2⟩

/-- C3 witness: the three transitions at concrete registries — append into
an empty registry, no-op on the identical reference, in-place replacement
on a version change. -/
theorem claim_C3_witness :
    reconcileSubdataset false [] ⟨"OTHER", "X", "v1", "sub", Option.none⟩ =
      ([⟨"OTHER", "X", "v1", "sub", Option.none⟩], true) ∧
    reconcileSubdataset false [⟨"OTHER", "X", "v1", "sub", Option.none⟩]
        ⟨"OTHER", "X", "v1", "sub", Option.none⟩ =
      ([⟨"OTHER", "X", "v1", "sub", Option.none⟩], false) ∧
    reconcileSubdataset false [⟨"OTHER", "X", "v1", "sub", Option.none⟩]
        ⟨"OTHER", "X", "v2", "sub", Option.none⟩ =
      ([⟨"OTHER", "X", "v2", "sub", Option.none⟩], true) := by
  refine ⟨(claim_C3 [] _).1 (by simp),
    (claim_C3 [⟨"OTHER", "X", "v1", "sub", Option.none⟩] _).2.1
      ⟨_, List.mem_singleton.mpr rfl, rfl, rfl, rfl⟩, ?_⟩
  have h := (claim_C3 [⟨"OTHER", "X", "v1", "sub", Option.none⟩]
      ⟨"OTHER", "X", "v2", "sub", Option.none⟩).2.2.1 0 (by simp)
    (by rintro r hr ⟨-, -, hv⟩
        simp only [List.mem_singleton] at hr
        subst hr
        exact absurd hv (by decide))
    (by decide) (fun j hj => absurd hj (Nat.not_lt_zero j))
  simpa using h

/-- C4 (confirmed): reconciliation is idempotent — immediately reconciling
the same reference again reports `changed = false` and leaves the rows
untouched. -/
theorem claim_C4 : ∀ (rows : List SubdsRow) (cand : SubdsRow),
    reconcileSubdataset false (reconcileSubdataset false rows cand).1 cand =
      ((reconcileSubdataset false rows cand).1, false) := by
  intro rows cand
  apply reconcile_of_exact
  unfold reconcileSubdataset
  by_cases hcond : ((rows.filter fun r => sameExact r cand).length == 0 && !false) = true
  · rw [if_pos hcond]
    rcases hidx : rows.findIdx? (fun r => samePrior r cand) with - | i
    · exact ⟨cand, by simp, by simp [sameExact]⟩
    · obtain ⟨hi, -, -⟩ := List.findIdx?_eq_some_iff_getElem.mp hidx
      have hlen : i < (rows.set i cand).length := by simpa using hi
      refine ⟨(rows.set i cand)[i], List.getElem_mem hlen, ?_⟩
      rw [List.getElem_set_self]
      simp [sameExact]
  · rw [if_neg hcond]
    simp only [Bool.and_eq_true, Bool.not_false, and_true, beq_iff_eq] at hcond
    have hne : rows.filter (fun r => sameExact r cand) ≠ [] := by
      intro hnil
      exact hcond (by simp [hnil])
    obtain ⟨r, hmem⟩ := List.exists_mem_of_ne_nil _ hne
    obtain ⟨hr, hexact⟩ := List.mem_filter.mp hmem
    exact ⟨r, hr, hexact⟩

theorem pairwise_set_of_rel {α : Type} {R : α → α → Prop} :
    ∀ {l : List α} {i : Nat} {a : α}, l.Pairwise R → (hi : i < l.length) →
      (∀ b, R l[i] b → R a b) → (∀ b, R b l[i] → R b a) →
      (l.set i a).Pairwise R
  | [], i, a, _, hi, _, _ => absurd hi (by simp)
  | x :: xs, 0, a, hpw, hi, hfwd, hbwd => by
      rw [List.pairwise_cons] at hpw
      rw [List.set_cons_zero, List.pairwise_cons]
      exact ⟨fun b hb => hfwd b (hpw.1 b hb), hpw.2⟩
  | x :: xs, i + 1, a, hpw, hi, hfwd, hbwd => by
      rw [List.pairwise_cons] at hpw
      rw [List.set_cons_succ, List.pairwise_cons]
      have hi2 : i < xs.length := by simpa using hi
      refine ⟨?_, pairwise_set_of_rel hpw.2 hi2 hfwd hbwd⟩
      intro b hb
      rcases List.mem_or_eq_of_mem_set hb with hmem | heq
      · exact hpw.1 b hmem
      · subst heq
        exact hbwd x (hpw.1 xs[i] (List.getElem_mem hi2))

/-- C5 (confirmed): if a registry holds at most one row per
`(identifier, path_posix)` key (no two rows share a key), then the registry
produced by one reconciliation of any candidate also does: stale rows are
replaced in place, never duplicated by appending. -/
theorem claim_C5 : ∀ (rows : List SubdsRow) (cand : SubdsRow),
    rows.Pairwise (fun a b => sameKey a b = false) →
    (reconcileSubdataset false rows cand).1.Pairwise (fun a b => sameKey a b = false) := by
  intro rows cand hpw
  unfold reconcileSubdataset
  by_cases hcond : ((rows.filter fun r => sameExact r cand).length == 0 && !false) = true
  · rw [if_pos hcond]
    simp only [Bool.and_eq_true, Bool.not_false, and_true, beq_iff_eq] at hcond
    have hfe : rows.filter (fun r => sameExact r cand) = [] := List.length_eq_zero.mp hcond
    have hnoexact : ∀ r ∈ rows, sameExact r cand = false := by
      intro r hr
      by_cases hx : sameExact r cand = true
      · have : r ∈ rows.filter (fun r => sameExact r cand) := List.mem_filter.mpr ⟨hr, hx⟩
        rw [hfe] at this
        exact absurd this (List.not_mem_nil r)
      · exact Bool.eq_false_iff.mpr hx
    rcases hidx : rows.findIdx? (fun r => samePrior r cand) with - | i
    · -- append: no row shares the candidate's key at all
      have hnoprior : ∀ r ∈ rows, samePrior r cand = false :=
        List.findIdx?_eq_none_iff.mp hidx
      rw [List.pairwise_append]
      refine ⟨hpw, List.pairwise_singleton _ _, ?_⟩
      intro r hr b hb
      rw [List.mem_singleton] at hb
      rw [hb]
      have hkey : sameKey r cand = true → False := by
        intro hk
        simp only [sameKey, Bool.and_eq_true, beq_iff_eq] at hk
        by_cases hv : r.version = cand.version
        · have : sameExact r cand = true := by
            simp [sameExact, hk.1, hk.2, hv]
          rw [hnoexact r hr] at this
          exact absurd this (by simp)
        · have : samePrior r cand = true := by
            simp [samePrior, hk.1, hk.2, hv]
          rw [hnoprior r hr] at this
          exact absurd this (by simp)
      exact Bool.eq_false_iff.mpr fun hk => hkey hk
    · -- replace in place at the first stale index
      obtain ⟨hi, hpi, -⟩ := List.findIdx?_eq_some_iff_getElem.mp hidx
      have hik : sameKey rows[i] cand = true := by
        simp only [samePrior, Bool.and_eq_true, beq_iff_eq] at hpi
        simp [sameKey, hpi.1.1, hpi.2]
      simp only [sameKey, Bool.and_eq_true, beq_iff_eq] at hik
      apply pairwise_set_of_rel hpw hi
      · intro b hb
        unfold sameKey at hb ⊢
        rw [← hik.1, ← hik.2]
        exact hb
      · intro b hb
        unfold sameKey at hb ⊢
        rw [← hik.1, ← hik.2]
        exact hb
  · rw [if_neg hcond]
    exact hpw

/-- C5 witness: the invariant is preserved through a version replacement on
a concrete one-row registry. -/
theorem claim_C5_witness :
    (reconcileSubdataset false [⟨"OTHER", "X", "v1", "sub", Option.none⟩]
        ⟨"OTHER", "X", "v2", "sub", Option.none⟩).1.Pairwise
      (fun a b => sameKey a b = false) :=
  claim_C5 _ _ (List.pairwise_singleton _ _)

/-! ## C1 — behaviour of term enrichment under lookup failure -/

/-- A 200-response body that is well formed per the external-interface
contract (§6 of the design): a JSON object whose optional `obo_synonym`
entry is an object or a list of objects. -/
def wfBody : PyVal → Bool
  | .dict d =>
      (match pyGet d "obo_synonym" (.list []) with
        | .dict _ => true
        | .list xs => xs.all fun x => match x with | PyVal.dict _ => true | _ => false
        | _ => false)
  | _ => false

theorem findGenbankSynonym_isSome : ∀ (xs : List PyVal),
    (xs.all fun x => match x with | PyVal.dict _ => true | _ => false) = true →
    (findGenbankSynonym xs).isSome := by
  intro xs
  induction xs with
  | nil => intro h; rfl
  | cons x rest ih =>
      intro h
      simp only [List.all_cons, Bool.and_eq_true] at h
      cases x with
      | dict s =>
          unfold findGenbankSynonym
          by_cases hc : (pyGet s "scope" PyVal.none == PyVal.str "hasExactSynonym" &&
              pyGet s "type" PyVal.none == PyVal.str "genbank common name") = true
          · simp [hc]
          · simp only [hc, Bool.false_eq_true, if_false]
            exact ih h.2
      | none => simp at h
      | bool b => simp at h
      | int n => simp at h
      | str s => simp at h
      | list ys => simp at h

theorem repr_ncbitaxon_isSome_of_wf {b : PyVal} (t : PyVal) (hwf : wfBody b = true) :
    (repr_ncbitaxon (some b) t).isSome := by
  cases b with
  | dict d =>
      simp only [wfBody] at hwf
      rcases hobo : pyGet d "obo_synonym" (.list []) with - | bb | nn | ss | xs | s <;>
        rw [hobo] at hwf
      · simp at hwf
      · simp at hwf
      · simp at hwf
      · simp at hwf
      · have hsome := findGenbankSynonym_isSome xs (by simpa using hwf)
        rcases hfg : findGenbankSynonym xs with - | syn
        · rw [hfg] at hsome; simp at hsome
        · simp only [repr_ncbitaxon, hobo, hfg]
          rfl
      · have hsome : (findGenbankSynonym [PyVal.dict s]).isSome :=
          findGenbankSynonym_isSome _ (by simp)
        rcases hfg : findGenbankSynonym [PyVal.dict s] with - | syn
        · rw [hfg] at hsome; simp at hsome
        · simp only [repr_ncbitaxon, hobo, hfg]
          rfl
  | none => simp [wfBody] at hwf
  | bool b2 => simp [wfBody] at hwf
  | int n => simp [wfBody] at hwf
  | str s => simp [wfBody] at hwf
  | list xs => simp [wfBody] at hwf

theorem repr_uberon_isSome_of_wf {b : PyVal} (t : PyVal) (hwf : wfBody b = true) :
    (repr_uberon (some b) t).isSome := by
  cases b with
  | dict d => rfl
  | none => simp [wfBody] at hwf
  | bool b2 => simp [wfBody] at hwf
  | int n => simp [wfBody] at hwf
  | str s => simp [wfBody] at hwf
  | list xs => simp [wfBody] at hwf

theorem reducer_default {f : Option PyVal → PyVal → Option PyVal}
    (hf : f = repr_ncbitaxon ∨ f = repr_uberon) (x : PyVal) :
    f Option.none x = some x := by
  rcases hf with hf | hf <;> subst hf <;> rfl

theorem getD_map_fst {l : List (α × β)} {i : Nat} (h : i < l.length) (d : α) (dp : α × β) :
    (l.map Prod.fst).getD i d = (l.getD i dp).1 := by
  rw [List.getD_eq_getElem, List.getD_eq_getElem _ _ h, List.getElem_map]
  simpa using h

theorem foldr_append_eq_filterMap {γ : Type} (p : String → Prop) [DecidablePred p]
    (s : String → γ) :
    ∀ ts : List String,
      ((ts.map fun t => if p t then ([] : List γ) else [s t]).foldr (· ++ ·) []) =
        ts.filterMap fun t => if p t then Option.none else some (s t) := by
  intro ts
  induction ts with
  | nil => rfl
  | cons t rest ih =>
      by_cases hc : p t <;> simp [hc, ih]

theorem olsBatch (resp : String → Response) (f : Option PyVal → PyVal → Option PyVal)
    (hf : f = repr_ncbitaxon ∨ f = repr_uberon) :
    ∀ ts : List String, (∀ t ∈ ts, (resp t).status = 200 → wfBody (resp t).body = true) →
    ∃ pairs : List (PyVal × List (String × Nat)),
      optMap (fun t => match t with
        | PyVal.str s =>
            let lk := ols_lookup resp s
            (f lk.1 (.str s)).map fun r => (r, lk.2)
        | _ => Option.none) (ts.map PyVal.str) = some pairs ∧
      pairs.map Prod.snd = (ts.map fun t =>
        if (resp t).status = 200 then [] else [(t, (resp t).status)]) ∧
      pairs.length = ts.length ∧
      ∀ i, i < ts.length →
        ((resp (ts.getD i "")).status ≠ 200 →
          (pairs.getD i (.none, [])).1 = PyVal.str (ts.getD i "")) ∧
        ((resp (ts.getD i "")).status = 200 →
          some (pairs.getD i (.none, [])).1 =
            f (some (resp (ts.getD i "")).body) (PyVal.str (ts.getD i ""))) := by
  intro ts
  induction ts with
  | nil => exact fun _ => ⟨[], rfl, rfl, rfl, fun i hi => absurd hi (by simp)⟩
  | cons t rest ih =>
      intro hwf
      obtain ⟨pairs, hopt, hsnd, hlen, hidx⟩ :=
        ih fun u hu => hwf u (List.mem_cons_of_mem t hu)
      by_cases hst : (resp t).status = 200
      · have hred : (f (some (resp t).body) (PyVal.str t)).isSome := by
          rcases hf with hf | hf <;> subst hf
          · exact repr_ncbitaxon_isSome_of_wf _ (hwf t (List.mem_cons_self t rest) hst)
          · exact repr_uberon_isSome_of_wf _ (hwf t (List.mem_cons_self t rest) hst)
        rw [Option.isSome_iff_exists] at hred
        obtain ⟨r, hr⟩ := hred
        have hlk : ols_lookup resp t = (some (resp t).body, []) := by
          unfold ols_lookup
          rw [if_pos hst]
        refine ⟨(r, []) :: pairs, ?_, ?_, ?_, ?_⟩
        · simp only [List.map_cons, optMap, hlk, hr, hopt]
          rfl
        · simp [hsnd, hst]
        · simp [hlen]
        · intro i hi
          cases i with
          | zero =>
              refine ⟨fun hne => absurd hst hne, fun _ => ?_⟩
              simpa using hr.symm
          | succ j =>
              have hj : j < rest.length := by simpa using hi
              simpa using hidx j hj
      · have hlk : ols_lookup resp t = (Option.none, [(t, (resp t).status)]) := by
          unfold ols_lookup
          rw [if_neg hst]
        refine ⟨(PyVal.str t, [(t, (resp t).status)]) :: pairs, ?_, ?_, ?_, ?_⟩
        · simp only [List.map_cons, optMap, hlk, reducer_default hf, hopt]
          rfl
        · simp [hsnd, hst]
        · simp [hlen]
        · intro i hi
          cases i with
          | zero => exact ⟨fun _ => rfl, fun h200 => absurd h200 hst⟩
          | succ j =>
              have hj : j < rest.length := by simpa using hi
              simpa using hidx j hj

/-- C1 (corrected), counterexample: for a term whose ontology lookup returns
404, `process_ols_term` with the taxonomy reducer emits the warning and
returns the *original term string unchanged* — the reducer's `default`
argument — rather than absent/None as the claim states (the code comments
this: "400 / 404 response, return term unchanged"). -/
theorem claim_C1_counterexample :
    process_ols_term (fun _ => ⟨404, PyVal.none⟩) repr_ncbitaxon
        (.list [.str "NCBITaxon:10090"]) =
      some (.list [.str "NCBITaxon:10090"], [("NCBITaxon:10090", 404)]) ∧
    PyVal.str "NCBITaxon:10090" ≠ PyVal.none := by decide

/-- C1 (amended): for every batch of terms (with well-formed 200 bodies per
the interface contract) and either reducer, `process_ols_term` returns
without raising; a term with a non-200 response contributes a recorded
non-fatal warning and its own term string unchanged (the reducer default),
and every term with a 200 response is still resolved to its reducer
representation, in order. -/
theorem claim_C1_amended :
    ∀ (resp : String → Response) (ts : List String)
      (f : Option PyVal → PyVal → Option PyVal),
      (f = repr_ncbitaxon ∨ f = repr_uberon) →
      (∀ t ∈ ts, (resp t).status = 200 → wfBody (resp t).body = true) →
      ∃ rs : List PyVal,
        process_ols_term resp f (.list (ts.map PyVal.str)) =
          some (.list rs, ts.filterMap fun t =>
            if (resp t).status = 200 then Option.none
            else some (t, (resp t).status)) ∧
        rs.length = ts.length ∧
        ∀ i, i < ts.length →
          ((resp (ts.getD i "")).status ≠ 200 →
            rs.getD i PyVal.none = PyVal.str (ts.getD i "")) ∧
          ((resp (ts.getD i "")).status = 200 →
            some (rs.getD i PyVal.none) =
              f (some (resp (ts.getD i "")).body) (PyVal.str (ts.getD i ""))) := by
  intro resp ts f hf hwf
  obtain ⟨pairs, hopt, hsnd, hlen, hidx⟩ := olsBatch resp f hf ts hwf
  refine ⟨pairs.map Prod.fst, ?_, by simp [hlen], ?_⟩
  · simp only [process_ols_term, hopt, Option.map_some']
    rw [hsnd, foldr_append_eq_filterMap (fun t => (resp t).status = 200)
      (fun t => (t, (resp t).status))]
  · intro i hi
    have hip : i < pairs.length := hlen ▸ hi
    rw [getD_map_fst hip PyVal.none (PyVal.none, [])]
    exact hidx i hi

/-- C1 witness: a two-term batch against a service that 404s the first term
and resolves the second — the failed term comes back unchanged with its
warning, the sibling is fully resolved. -/
theorem claim_C1_witness :
    ∃ rs : List PyVal,
      process_ols_term
          (fun t => if t = "A:1" then ⟨404, PyVal.none⟩
            else ⟨200, PyVal.dict [("label", .str "house mouse"), ("iri", .str "I")]⟩)
          repr_ncbitaxon (.list (["A:1", "B:2"].map PyVal.str)) =
        some (.list rs, ["A:1", "B:2"].filterMap fun t =>
          if ((if t = "A:1" then (⟨404, PyVal.none⟩ : Response)
            else ⟨200, PyVal.dict [("label", .str "house mouse"), ("iri", .str "I")]⟩).status) = 200
          then Option.none
          else some (t, (if t = "A:1" then (⟨404, PyVal.none⟩ : Response)
            else ⟨200, PyVal.dict [("label", .str "house mouse"), ("iri", .str "I")]⟩).status)) ∧
      rs.length = ["A:1", "B:2"].length ∧
      ∀ i, i < ["A:1", "B:2"].length →
        (((if ["A:1", "B:2"].getD i "" = "A:1" then (⟨404, PyVal.none⟩ : Response)
            else ⟨200, PyVal.dict [("label", .str "house mouse"), ("iri", .str "I")]⟩).status) ≠ 200 →
          rs.getD i PyVal.none = PyVal.str (["A:1", "B:2"].getD i "")) ∧
        (((if ["A:1", "B:2"].getD i "" = "A:1" then (⟨404, PyVal.none⟩ : Response)
            else ⟨200, PyVal.dict [("label", .str "house mouse"), ("iri", .str "I")]⟩).status) = 200 →
          some (rs.getD i PyVal.none) =
            repr_ncbitaxon (some ((if ["A:1", "B:2"].getD i "" = "A:1" then (⟨404, PyVal.none⟩ : Response)
              else ⟨200, PyVal.dict [("label", .str "house mouse"), ("iri", .str "I")]⟩).body))
              (PyVal.str (["A:1", "B:2"].getD i ""))) :=
  claim_C1_amended
    (fun t => if t = "A:1" then ⟨404, PyVal.none⟩
      else ⟨200, PyVal.dict [("label", .str "house mouse"), ("iri", .str "I")]⟩)
    ["A:1", "B:2"] repr_ncbitaxon (Or.inl rfl) (by decide)

/-! ## C6 — identifier minting -/

theorem pyFormat_mint (n : String) :
    pyFormatScan [("name", n)] ("abcd-j.\x7bname\x7d".data) = some ("abcd-j." ++ n) := by
  have hdata : "abcd-j.\x7bname\x7d".data =
      ['a', 'b', 'c', 'd', '-', 'j', '.', '\x7b', 'n', 'a', 'm', 'e', '\x7d'] := rfl
  rw [hdata]
  simp [pyFormatScan]
  rw [show List.dropWhile (fun c2 => decide ¬c2 = '\x7d') ['n', 'a', 'm', 'e', '\x7d'] =
    ['\x7d'] from rfl]
  simp [pyFormatScan, ← String.append_assoc]

theorem mint_dataset_id_eq (n : String) :
    mint_dataset_id n =
      some (uuidToString (uuid5Nat (natToBytes 16 (uuid5Nat NAMESPACE_DNS "datalad.org"))
        ("abcd-j." ++ n))) := by
  unfold mint_dataset_id get_dataset_id
  show (pyFormatScan [("name", n)] ("abcd-j.\x7bname\x7d".data)).map
      (fun raw_id => uuidToString
        (uuid5Nat (natToBytes 16 (uuid5Nat NAMESPACE_DNS "datalad.org")) raw_id)) =
    some (uuidToString (uuid5Nat (natToBytes 16 (uuid5Nat NAMESPACE_DNS "datalad.org"))
      ("abcd-j." ++ n)))
  rw [pyFormat_mint]
  rfl

theorem hexDigits32_mod (n : Nat) : hexDigits32 (n % 2 ^ 128) = hexDigits32 n := by
  unfold hexDigits32
  apply List.map_congr_left
  intro i hi
  rw [List.mem_range] at hi
  congr 1
  rw [Nat.shiftRight_eq_div_pow, Nat.shiftRight_eq_div_pow]
  have h2 : (2 : Nat) ^ 128 = 2 ^ ((31 - i) * 4) * 2 ^ (128 - (31 - i) * 4) := by
    rw [← pow_add]
    congr 1
    omega
  rw [h2, Nat.mod_mul_right_div_self]
  apply Nat.mod_mod_of_dvd
  have h16 : (16 : Nat) = 2 ^ 4 := by norm_num
  rw [h16]
  exact pow_dvd_pow 2 (by omega)

theorem uuidToString_mod (n : Nat) : uuidToString (n % 2 ^ 128) = uuidToString n := by
  unfold uuidToString
  rw [hexDigits32_mod]

/-- C6 (corrected), counterexample: minting cannot send different names to
different identifiers for *every* pair of names — the identifiers live in a
fixed 128-bit space while there are infinitely many names, so by the
pigeonhole principle two distinct names share an identifier (no concrete
collision is known; SHA-1 makes finding one computationally hard, but the
universally quantified claim is still false). -/
theorem claim_C6_counterexample :
    ∃ n1 n2 : String, n1 ≠ n2 ∧ mint_dataset_id n1 = mint_dataset_id n2 := by
  have hpos : 0 < 2 ^ 128 := Nat.two_pow_pos 128
  obtain ⟨n1, n2, hne, heq⟩ :=
    Finite.exists_ne_map_eq_of_infinite
      (fun n : String =>
        (⟨uuid5Nat (natToBytes 16 (uuid5Nat NAMESPACE_DNS "datalad.org"))
            ("abcd-j." ++ n) % 2 ^ 128,
          Nat.mod_lt _ hpos⟩ : Fin (2 ^ 128)))
  refine ⟨n1, n2, hne, ?_⟩
  have hval : uuid5Nat (natToBytes 16 (uuid5Nat NAMESPACE_DNS "datalad.org"))
        ("abcd-j." ++ n1) % 2 ^ 128 =
      uuid5Nat (natToBytes 16 (uuid5Nat NAMESPACE_DNS "datalad.org"))
        ("abcd-j." ++ n2) % 2 ^ 128 := by
    have h2 := congrArg (fun x : Fin (2 ^ 128) => x.val) heq
    simpa using h2
  rw [mint_dataset_id_eq, mint_dataset_id_eq, ← uuidToString_mod, hval, uuidToString_mod]

/-- C6 (amended): minting is pure, total and deterministic, and the
identifier is exactly the claimed two-level derivation — the version-5 UUID
of `"abcd-j." ++ name` under the namespace UUID `uuid5(NAMESPACE_DNS,
"datalad.org")` — formatted as the canonical 36-character UUID string.
Distinctness of identifiers for distinct names holds exactly when the two
derived 128-bit values differ (and cannot hold universally — see the
counterexample). -/
theorem claim_C6_amended :
    ∀ ds_name : String,
      mint_dataset_id ds_name =
        some (uuidToString (uuid5Nat
          (natToBytes 16 (uuid5Nat NAMESPACE_DNS "datalad.org"))
          ("abcd-j." ++ ds_name))) ∧
      (∃ s, mint_dataset_id ds_name = some s ∧ s.length = 36) ∧
      ∀ m : String, ds_name = m → mint_dataset_id ds_name = mint_dataset_id m := by
  intro ds_name
  refine ⟨mint_dataset_id_eq ds_name, ⟨_, mint_dataset_id_eq ds_name, ?_⟩,
    fun m hm => by rw [hm]⟩
  unfold uuidToString
  have hlen : (hexDigits32 (uuid5Nat
      (natToBytes 16 (uuid5Nat NAMESPACE_DNS "datalad.org"))
      ("abcd-j." ++ ds_name))).length = 32 := by
    unfold hexDigits32
    simp
  rw [String.length_mk]
  simp [hlen]

/-- C6 witness: the hypothesis-bearing determinism conjunct at a concrete
name. -/
theorem claim_C6_witness :
    mint_dataset_id "demo-dataset" = mint_dataset_id "demo-dataset" :=
  (claim_C6_amended "demo-dataset").2.2 "demo-dataset" rfl

/-! ## C7 — no `None` values in the assembled records -/

mutual

/-- No dict anywhere inside the value maps a key to Python `None`. -/
def noNoneValues : PyVal → Bool
  | .list xs => noNoneValuesL xs
  | .dict kvs => noNoneValuesD kvs
  | _ => true

/-- `noNoneValues` over the elements of a list value. -/
def noNoneValuesL : List PyVal → Bool
  | [] => true
  | x :: xs => noNoneValues x && noNoneValuesL xs

/-- `noNoneValues` over the entries of a dict value. -/
def noNoneValuesD : List (String × PyVal) → Bool
  | [] => true
  | (_, v) :: kvs => !(PyVal.beq v .none) && noNoneValues v && noNoneValuesD kvs

end

theorem mem_pySet {d : List (String × PyVal)} {k : String} {v : PyVal} {kv : String × PyVal}
    (h : kv ∈ pySet d k v) : kv ∈ d ∨ kv.2 = v := by
  induction d with
  | nil =>
      simp only [pySet, List.mem_singleton] at h
      subst h
      exact Or.inr rfl
  | cons kv0 rest ih =>
      obtain ⟨k0, v0⟩ := kv0
      simp only [pySet] at h
      by_cases hk : (k0 == k) = true
      · rw [if_pos hk] at h
        rcases List.mem_cons.mp h with heq | hmem
        · subst heq
          exact Or.inr rfl
        · exact Or.inl (List.mem_cons_of_mem _ hmem)
      · rw [if_neg hk] at h
        rcases List.mem_cons.mp h with heq | hmem
        · subst heq
          exact Or.inl (List.mem_cons_self _ _)
        · rcases ih hmem with hmem2 | hval
          · exact Or.inl (List.mem_cons_of_mem _ hmem2)
          · exact Or.inr hval

theorem mem_pyUnion {d2 : List (String × PyVal)} :
    ∀ {d1 : List (String × PyVal)} {kv : String × PyVal}, kv ∈ pyUnion d1 d2 →
      kv ∈ d1 ∨ ∃ kv2 ∈ d2, kv.2 = kv2.2 := by
  induction d2 with
  | nil => exact fun h => Or.inl h
  | cons x rest ih =>
      intro d1 kv h
      have h2 : kv ∈ pyUnion (pySet d1 x.1 x.2) rest := h
      rcases ih h2 with hmem | ⟨kv2, hkv2, hv⟩
      · rcases mem_pySet hmem with hmem2 | hval
        · exact Or.inl hmem2
        · exact Or.inr ⟨x, List.mem_cons_self x rest, hval⟩
      · exact Or.inr ⟨kv2, List.mem_cons_of_mem x hkv2, hv⟩

theorem optMap_mem {g : α → Option β} :
    ∀ {l : List α} {bs : List β}, optMap g l = some bs →
      ∀ b ∈ bs, ∃ a ∈ l, g a = some b := by
  intro l
  induction l with
  | nil =>
      intro bs h b hb
      simp only [optMap, Option.some_inj] at h
      subst h
      exact absurd hb (List.not_mem_nil b)
  | cons a rest ih =>
      intro bs h b hb
      simp only [optMap, Option.bind_eq_bind, Option.bind_eq_some, Option.pure_def,
        Option.some_inj] at h
      obtain ⟨b0, hb0, bs', hbs', hcons⟩ := h
      subst hcons
      rcases List.mem_cons.mp hb with heq | hmem
      · exact ⟨a, List.mem_cons_self a rest, heq ▸ hb0⟩
      · obtain ⟨a2, ha2, hga2⟩ := ih hbs' b hmem
        exact ⟨a2, List.mem_cons_of_mem a ha2, hga2⟩

theorem process_file_nonefree {f pf : PyVal} (h : process_file f = some pf) :
    ∃ pfd, pf = PyVal.dict pfd ∧ ∀ kv ∈ pfd, kv.2 ≠ PyVal.none := by
  cases f with
  | dict kvs =>
      simp only [process_file, Option.bind_eq_bind, Option.bind_eq_some, Option.pure_def,
        Option.some_inj] at h
      obtain ⟨path, -, cbs, -, hrest⟩ := h
      have hfin : ∀ d2 : List (String × PyVal),
          pf = PyVal.dict (d2.filter fun kv => !(kv.2 == PyVal.none)) →
          ∃ pfd, pf = PyVal.dict pfd ∧ ∀ kv ∈ pfd, kv.2 ≠ PyVal.none := by
        intro d2 hpf
        refine ⟨_, hpf, ?_⟩
        intro kv hkv
        have hv := (List.mem_filter.mp hkv).2
        intro hcontra
        rw [hcontra] at hv
        exact absurd hv (by decide)
      split at hrest
      · split at hrest
        · simp only [Option.map_eq_some', Option.bind_eq_some, Option.some_inj] at hrest
          obtain ⟨y, ⟨nv, -, -⟩, d2, -, hpf⟩ := hrest
          exact hfin d2 hpf.symm
        · simp only [Option.some_bind, Option.bind_eq_some, Option.some_inj] at hrest
          obtain ⟨d2, -, hpf⟩ := hrest
          exact hfin d2 hpf.symm
      · simp only [Option.some_bind, Option.bind_eq_some, Option.some_inj] at hrest
        obtain ⟨d2, -, hpf⟩ := hrest
        exact hfin d2 hpf.symm
  | none => simp [process_file] at h
  | bool b => simp [process_file] at h
  | int n => simp [process_file] at h
  | str s => simp [process_file] at h
  | list xs => simp [process_file] at h

set_option maxRecDepth 10000 in
/-- C7 (corrected), counterexample: a well-formed document whose
`subdatasets` entry has no `url` key assembles into a dataset record that
*does* contain a `None`-valued key at a nested level — `process_subdatasets`
emits `dataset_url: None` inside the `subdatasets` list, and the assembler
only strips `None` at the top level. -/
theorem claim_C7_counterexample :
    (get_tabby_metadata (fun _ => ⟨404, PyVal.none⟩)
        [("subdatasets", .dict [("identifier", .str "X"), ("version", .str "v1"),
          ("path_posix", .str "sub")])]
        [("type", .str "dataset"), ("dataset_id", .str "id0"),
          ("dataset_version", .str "v0"), ("source_name", .str "tabby"),
          ("source_version", .str "0.1.0")]
        [("type", .str "file"), ("dataset_id", .str "id0"),
          ("dataset_version", .str "v0"), ("source_name", .str "tabby"),
          ("source_version", .str "0.1.0")]).map (fun p => noNoneValues p.1) =
      some false := by decide

/-- C7 (amended): the *top level* of every assembled record is free of
`None`-valued keys — the assembler strips them from the dataset record, and
each file record merges a `None`-free base with the already-filtered
`process_file` output — but nested `None` values (such as `dataset_url` of
a url-less subdataset) can remain. -/
theorem claim_C7_amended :
    ∀ (resp : String → Response) (compacted meta_base file_base : List (String × PyVal))
      (rec : PyVal) (files : List PyVal),
      (∀ kv ∈ file_base, kv.2 ≠ PyVal.none) →
      get_tabby_metadata resp compacted meta_base file_base = some (rec, files) →
      (∃ m, rec = PyVal.dict m ∧ ∀ kv ∈ m, kv.2 ≠ PyVal.none) ∧
      (∀ f ∈ files, ∃ m, f = PyVal.dict m ∧ ∀ kv ∈ m, kv.2 ≠ PyVal.none) := by
  intro resp compacted meta_base file_base rec files hfb hre
  simp only [get_tabby_metadata, tabby_file_records, Option.bind_eq_bind, Option.bind_eq_some,
    Option.pure_def, Option.some_inj, Prod.mk.injEq] at hre
  obtain ⟨m, -, addl, -, fs, hfs, hrec, hfiles⟩ := hre
  subst hfiles
  constructor
  · refine ⟨_, hrec.symm, ?_⟩
    intro kv hkv
    have hv := (List.mem_filter.mp hkv).2
    intro hcontra
    rw [hcontra] at hv
    exact absurd hv (by decide)
  · intro f hf
    obtain ⟨fi, -, hg⟩ := optMap_mem hfs f hf
    rw [Option.map_eq_some'] at hg
    obtain ⟨pf, hpf, hwrap⟩ := hg
    obtain ⟨pfd, hpfd, hpfdfree⟩ := process_file_nonefree hpf
    subst hpfd
    refine ⟨pyUnion file_base pfd, hwrap.symm, ?_⟩
    intro kv hkv
    rcases mem_pyUnion hkv with hmem | ⟨kv2, hkv2, hval⟩
    · exact hfb kv hmem
    · rw [hval]
      exact hpfdfree kv2 hkv2

/-- C7 witness: the amended guarantee instantiated on the url-less
subdataset document of the counterexample — the assembled records exist and
their top levels are `None`-free. -/
theorem claim_C7_witness :
    (get_tabby_metadata (fun _ => ⟨404, PyVal.none⟩)
        [("subdatasets", .dict [("identifier", .str "X"), ("version", .str "v1"),
          ("path_posix", .str "sub")])]
        [("type", .str "dataset"), ("dataset_id", .str "id0"),
          ("dataset_version", .str "v0"), ("source_name", .str "tabby"),
          ("source_version", .str "0.1.0")]
        [("type", .str "file"), ("dataset_id", .str "id0"),
          ("dataset_version", .str "v0"), ("source_name", .str "tabby"),
          ("source_version", .str "0.1.0")]).elim False
      (fun p => (∃ m, p.1 = PyVal.dict m ∧ ∀ kv ∈ m, kv.2 ≠ PyVal.none) ∧
        ∀ f ∈ p.2, ∃ m, f = PyVal.dict m ∧ ∀ kv ∈ m, kv.2 ≠ PyVal.none) := by
  rcases h0 : get_tabby_metadata (fun _ => ⟨404, PyVal.none⟩)
      [("subdatasets", .dict [("identifier", .str "X"), ("version", .str "v1"),
        ("path_posix", .str "sub")])]
      [("type", .str "dataset"), ("dataset_id", .str "id0"),
        ("dataset_version", .str "v0"), ("source_name", .str "tabby"),
        ("source_version", .str "0.1.0")]
      [("type", .str "file"), ("dataset_id", .str "id0"),
        ("dataset_version", .str "v0"), ("source_name", .str "tabby"),
        ("source_version", .str "0.1.0")] with - | p
  · exact absurd h0 (by decide)
  · have h := claim_C7_amended (fun _ => ⟨404, PyVal.none⟩)
      [("subdatasets", .dict [("identifier", .str "X"), ("version", .str "v1"),
        ("path_posix", .str "sub")])]
      [("type", .str "dataset"), ("dataset_id", .str "id0"),
        ("dataset_version", .str "v0"), ("source_name", .str "tabby"),
        ("source_version", .str "0.1.0")]
      [("type", .str "file"), ("dataset_id", .str "id0"),
        ("dataset_version", .str "v0"), ("source_name", .str "tabby"),
        ("source_version", .str "0.1.0")] p.1 p.2
      (by intro kv hkv; fin_cases hkv <;> decide) (by rw [h0])
    simpa using h
